import Mathlib

/-! # neogo: transaction attributes, spendable outputs and script opcodes

A shallow embedding of `model.go` (package `neogo`) and `script/opcode.go`
(package `script`).

Go's `byte` is `Fin 256`.  A Go `string` and a Go `[]byte` are both finite byte
sequences, so both are `List Byte`; string literals of the source (all ASCII)
are written with `lit`.
-/

namespace neogo

/-- A Go `byte`. -/
abbrev Byte := Fin 256

/-- The content of a Go `string` or `[]byte`. -/
abbrev ByteSeq := List Byte

/-- The bytes of an ASCII string literal. -/
def lit (s : String) : ByteSeq :=
  s.toList.map fun c => Fin.ofNat c.toNat

/-! ## `model.go`: `TxAttr` -/

/-- Go `type TxAttr struct { Usage byte; Data []byte }`. -/
structure TxAttr where
  Usage : Byte
  Data : ByteSeq
deriving DecidableEq, Repr

/-- Go `func (attr *TxAttr) Bytes() []byte`: `WriteByte(attr.Usage)` then
`Write(attr.Data)` into an empty buffer, whose content is returned. -/
def TxAttr.Bytes (attr : TxAttr) : ByteSeq :=
  let buff : ByteSeq := []
  let buff := buff ++ [attr.Usage]
  let buff := buff ++ attr.Data
  buff


/-! ## `encoding/hex`, as used by `model.go` -/

/-- Go `hex.InvalidByteError` and `hex.ErrLength`. -/
inductive DecodeError where
  | InvalidByteError (b : Byte)
  | ErrLength
deriving DecidableEq, Repr

/-- Go `hex.fromHexChar`: the value of one hexadecimal digit; `none` is Go's
`false` second result.  The bounds are the characters `'0'`, `'9'`, `'a'`,
`'f'`, `'A'`, `'F'`. -/
def fromHexChar (c : Byte) : Option Byte :=
  if 0x30 ≤ c ∧ c ≤ 0x39 then some (c - 0x30)
  else if 0x61 ≤ c ∧ c ≤ 0x66 then some (c - 0x61 + 10)
  else if 0x41 ≤ c ∧ c ≤ 0x46 then some (c - 0x41 + 10)
  else none

/-- Go `hex.DecodeString`: the pairs of characters are decoded from left to
right into `(a << 4) | b`; the first invalid character stops the decoding
with `InvalidByteError`, a single trailing valid character with `ErrLength`.
The result is Go's pair: the bytes decoded before the error, and the error. -/
def DecodeString : ByteSeq → ByteSeq × Option DecodeError
  | [] => ([], none)
  | [c] =>
    match fromHexChar c with
    | none => ([], some (.InvalidByteError c))
    | some _ => ([], some .ErrLength)
  | p :: q :: src =>
    match fromHexChar p with
    | none => ([], some (.InvalidByteError p))
    | some a =>
      match fromHexChar q with
      | none => ([], some (.InvalidByteError q))
      | some b =>
        let r := DecodeString src
        (((a <<< 4) ||| b) :: r.1, r.2)

/-! ## `model.go`: `Vout` and `UTXO` -/

/-- Go `type Vout struct`. -/
structure Vout where
  Address : ByteSeq
  Asset : ByteSeq
  N : Int
  Value : ByteSeq
deriving DecidableEq, Repr

/-- Go `type UTXO struct`.  `F` is the number type (`float64` in the source);
the unexported `value *float64` is `none` for the nil pointer and `some v` for
a pointer to `v`. -/
structure UTXO (F : Type) where
  TransactionID : ByteSeq
  Vout : Vout
  value : Option F
deriving DecidableEq, Repr

section Value

variable {F E : Type} [Zero F]

/-- Go `func (utxo *UTXO) Value() (float64, error)`.  `ParseFloat s` stands
for `strconv.ParseFloat(s, 64)` (`E` is its error type).  The result is Go's
pair `(number, error)` together with the receiver after the call. -/
def UTXO.Value (ParseFloat : ByteSeq → Except E F) (utxo : UTXO F) :
    (F × Option E) × UTXO F :=
  match utxo.value with
  | none =>
    match ParseFloat utxo.Vout.Value with
    | .error err => ((0, some err), utxo)
    | .ok val => ((val, none), { utxo with value := some val })
  | some v => ((v, none), utxo)

/-- Go `func (utxo *UTXO) TxHex() ([]byte, error)`:
`hex.DecodeString(utxo.TransactionID)`, together with the receiver after the
call (the method only reads it). -/
def UTXO.TxHex (utxo : UTXO F) : (ByteSeq × Option DecodeError) × UTXO F :=
  (DecodeString utxo.TransactionID, utxo)

/-- The two methods of `*UTXO`. -/
inductive UTXO.Method where
  | Value
  | TxHex
deriving DecidableEq, Repr

/-- The receiver after one method call. -/
def UTXO.call (ParseFloat : ByteSeq → Except E F) (utxo : UTXO F) :
    UTXO.Method → UTXO F
  | .Value => (utxo.Value ParseFloat).2
  | .TxHex => utxo.TxHex.2

/-- The receiver after a sequence of method calls. -/
def UTXO.calls (ParseFloat : ByteSeq → Except E F) (utxo : UTXO F)
    (ms : List UTXO.Method) : UTXO F :=
  ms.foldl (UTXO.call ParseFloat) utxo

/-- A UTXO as the node query layer creates it: the exported fields are set
and the unexported cache is nil. -/
def UTXO.fresh (txid : ByteSeq) (vout : neogo.Vout) : UTXO F :=
  { TransactionID := txid, Vout := vout, value := none }

/-- The cache invariant of the data model: a filled cache holds the parse of
`Vout.Value`. -/
def UTXO.CacheOk (ParseFloat : ByteSeq → Except E F) (utxo : UTXO F) : Prop :=
  ∀ v, utxo.value = some v → ParseFloat utxo.Vout.Value = .ok v

end Value

/-! ## `model.go`: `utxoByValue` -/

section utxoByValue

variable {F E : Type} [Zero F] [LT F] [DecidableRel (fun x y : F => x < y)]

/-- Go `type utxoByValue []*UTXO`: the pointed-to objects in slice order (the
pointers are taken to be non-nil and pairwise distinct). -/
abbrev utxoByValue (F : Type) := List (UTXO F)

/-- Go `func (a utxoByValue) Len() int`. -/
def utxoByValue.Len (a : utxoByValue F) : Nat :=
  a.length

/-- Go `func (a utxoByValue) Swap(i, j int)`: `a[i], a[j] = a[j], a[i]`;
`none` is the index-out-of-range panic. -/
def utxoByValue.Swap (a : utxoByValue F) (i j : Nat) : Option (utxoByValue F) :=
  match a[i]?, a[j]? with
  | some x, some y => some ((a.set i y).set j x)
  | _, _ => none

/-- Go `func (a utxoByValue) Less(i, j int) bool`: both `vali` and `valj` are
read from `a[1].Value()`, the errors being discarded; the result is
`vali < valj`, together with the slice after the two calls.  `none` is the
index-out-of-range panic of `a[1]`. -/
def utxoByValue.Less (ParseFloat : ByteSeq → Except E F) (a : utxoByValue F)
    (_i _j : Nat) : Option (Bool × utxoByValue F) :=
  match a[1]? with
  | none => none
  | some u =>
    let r₁ := u.Value ParseFloat
    let vali := r₁.1.1
    let r₂ := r₁.2.Value ParseFloat
    let valj := r₂.1.1
    some (decide (vali < valj), a.set 1 r₂.2)

end utxoByValue

/-! ## `sort.Sort` on a `utxoByValue` -/

section InsertionSort

variable {F E : Type} [Zero F] [LT F] [DecidableRel (fun x y : F => x < y)]

/-- Go `sort.insertionSort`, the inner loop started at `j` with lower bound 0:
`for ; j > 0 && data.Less(j, j-1); j-- { data.Swap(j, j-1) }`, on the
`sort.Interface` that `utxoByValue` implements in `model.go`.  `none` is a
panic of `Less` or `Swap`. -/
def insertionInner (ParseFloat : ByteSeq → Except E F) :
    Nat → utxoByValue F → Option (utxoByValue F)
  | 0, data => some data
  | j + 1, data =>
    match data.Less ParseFloat (j + 1) j with
    | none => none
    | some (false, data) => some data
    | some (true, data) =>
      match data.Swap (j + 1) j with
      | none => none
      | some data => insertionInner ParseFloat j data

/-- Go `sort.insertionSort`, the outer loop over the remaining values of `i`:
`for i := 1; i < n; i++ { inner loop started at i }`. -/
def insertionOuter (ParseFloat : ByteSeq → Except E F) :
    List Nat → utxoByValue F → Option (utxoByValue F)
  | [], data => some data
  | i :: rest, data =>
    match insertionInner ParseFloat i data with
    | none => none
    | some data => insertionOuter ParseFloat rest data

/-- Go `sort.insertionSort(data, 0, data.Len())`, which is what
`sort.Sort(data)` runs on a slice of at most 12 elements. -/
def insertionSort (ParseFloat : ByteSeq → Except E F) (data : utxoByValue F) :
    Option (utxoByValue F) :=
  insertionOuter ParseFloat (List.range' 1 (data.Len - 1)) data

end InsertionSort

/-! ## The Coin Selector -/

/-- Modelled from the spec: the `InsufficientFundsError` of the Coin Selector
(§7), which `model.go` does not contain. -/
inductive SelectError where
  | InsufficientFundsError
deriving DecidableEq, Repr

section CoinSelector

variable {F E : Type} [Zero F] [Add F] [LE F] [DecidableRel (fun x y : F => x ≤ y)]
  [LT F] [DecidableRel (fun x y : F => x < y)]

/-- Modelled from the spec: the candidates under consideration (§4.4), which
`model.go` does not contain: each candidate whose `Value()` call succeeds,
as that call leaves it, in input order; "outputs whose value fails to parse
are excluded from consideration". -/
def resolvedCandidates (ParseFloat : ByteSeq → Except E F)
    (candidates : List (UTXO F)) : utxoByValue F :=
  candidates.filterMap fun utxo =>
    match utxo.Value ParseFloat with
    | ((_, none), utxo') => some utxo'
    | ((_, some _), _) => none

/-- Modelled from the spec: the order of consideration (§4.4, §9), which
`model.go` does not contain as a function: the candidates under consideration
sorted through the collection wrapper `utxoByValue`, that is by the insertion
sort of `sort.Sort` driven by `utxoByValue.Len`, `utxoByValue.Less` and
`utxoByValue.Swap` of `model.go`.  `none` is a panic of `Less` or `Swap`. -/
def considered (ParseFloat : ByteSeq → Except E F)
    (candidates : List (UTXO F)) : Option (utxoByValue F) :=
  insertionSort ParseFloat (resolvedCandidates ParseFloat candidates)

/-- The resolved value of an output: the number its `Value()` call returns. -/
def valueOf (ParseFloat : ByteSeq → Except E F) (utxo : UTXO F) : F :=
  (utxo.Value ParseFloat).1.1

/-- Modelled from the spec: the accumulation loop of the Coin Selector
(§4.4), which `model.go` does not contain: "accumulate outputs in ascending
order, stopping as soon as the running total is ≥ target"; when the outputs
run out below the target, "selection fails with an `InsufficientFundsError`
rather than returning a partial, under-funded set". -/
def accumulate (ParseFloat : ByteSeq → Except E F) (target : F) :
    F → List (UTXO F) → Except SelectError (List (UTXO F))
  | running, [] =>
    if target ≤ running then .ok [] else .error .InsufficientFundsError
  | running, x :: rest =>
    if target ≤ running then .ok []
    else
      match accumulate ParseFloat target (running + valueOf ParseFloat x) rest with
      | .ok chosen => .ok (x :: chosen)
      | .error e => .error e

/-- Modelled from the spec: the Coin Selector (§4.4), which `model.go` does
not contain: the outputs chosen for `target` from the candidates in their
order of consideration.  `none` is a panic of the sort. -/
def selectCoins (ParseFloat : ByteSeq → Except E F) (candidates : List (UTXO F))
    (target : F) : Option (Except SelectError (List (UTXO F))) :=
  match considered ParseFloat candidates with
  | none => none
  | some outputs => some (accumulate ParseFloat target 0 outputs)

/-- The total of the resolved values of a list of outputs, added up from 0
from left to right, as the accumulation loop adds them. -/
def totalValue (ParseFloat : ByteSeq → Except E F) (outputs : List (UTXO F)) : F :=
  outputs.foldl (fun running utxo => running + valueOf ParseFloat utxo) 0

/-- The facts about the order and the addition of the number type that the
statements on the Coin Selector use.  They hold of `float64` with its
rounded addition: `<` is irreflexive, `≤` is transitive, `x < y` excludes
`y ≤ x`, `0 ≤ 0`, and adding a number that is at least 0 to a number that is
at least 0 does not make it smaller.  Neither associativity nor
commutativity of the addition is among them. -/
structure NumberOrder (F : Type) [Zero F] [Add F] [LE F] [LT F] : Prop where
  lt_irrefl : ∀ x : F, ¬ x < x
  le_trans : ∀ x y z : F, x ≤ y → y ≤ z → x ≤ z
  not_le_of_lt : ∀ x y : F, x < y → ¬ y ≤ x
  zero_le_zero : (0 : F) ≤ 0
  le_add : ∀ x y : F, 0 ≤ x → 0 ≤ y → x ≤ x + y

end CoinSelector


/-! ## An exact decimal reader

`strconv.ParseFloat` is a parameter of the definitions above.  At concrete
inputs it is instantiated with `parseDecimal`, which reads the plain numerals
`digits` and `digits.digits` exactly, as rational numbers.  On numerals such
as `0.5`, `1.0`, `2.5`, whose value is a binary fraction, this is the number
`strconv.ParseFloat(s, 64)` returns. -/

/-- Go `strconv.ErrSyntax`. -/
inductive ParseError where
  | ErrSyntax
deriving DecidableEq, Repr

/-- The number written by a sequence of decimal digits, continuing from
`acc`; `none` when a character is not a digit. -/
def readDigits (acc : Nat) : ByteSeq → Option Nat
  | [] => some acc
  | c :: s =>
    if 0x30 ≤ c ∧ c ≤ 0x39 then readDigits (10 * acc + (c.val - 0x30)) s else none

/-- The digits of a plain numeral as a number, and how many of them follow
the decimal point (`0x2E`). -/
def decimalParts (s : ByteSeq) : Option (Nat × Nat) :=
  match s.span fun c => decide (c ≠ 0x2E) with
  | (whole, []) =>
    if whole = [] then none else (readDigits 0 whole).map fun m => (m, 0)
  | (whole, _ :: frac) =>
    if whole = [] ∨ frac = [] then none
    else (readDigits 0 (whole ++ frac)).map fun m => (m, frac.length)

/-- The exact value of a plain numeral. -/
def parseDecimal (s : ByteSeq) : Except ParseError ℚ :=
  match decimalParts s with
  | none => .error .ErrSyntax
  | some (m, k) => .ok ((m : ℚ) / 10 ^ k)

/-- A freshly created candidate whose value string is the ASCII text `s`. -/
def candidate (s : String) : UTXO ℚ :=
  UTXO.fresh (lit "deadbeef") { Address := [], Asset := [], N := 0, Value := lit s }

/-- The candidate `candidate s` once its cache holds `v`. -/
def resolvedCandidate (s : String) (v : ℚ) : UTXO ℚ :=
  { candidate s with value := some v }

/-- The characters `0-9`, `a-f`, `A-F`. -/
def isHexDigit (c : Byte) : Prop :=
  (0x30 ≤ c ∧ c ≤ 0x39) ∨ (0x61 ≤ c ∧ c ≤ 0x66) ∨ (0x41 ≤ c ∧ c ≤ 0x46)

instance (c : Byte) : Decidable (isHexDigit c) := by
  unfold isHexDigit; infer_instance

end neogo

/-! ## `script/opcode.go` -/

namespace neogo.script

/-- Go `type OpCode byte`. -/
abbrev OpCode := Byte

def PUSH0 : OpCode := 0x00
def PUSHF : OpCode := PUSH0
def PUSHBYTES1 : OpCode := 0x01
def PUSHBYTES75 : OpCode := 0x4B
def PUSHDATA1 : OpCode := 0x4C
def PUSHDATA2 : OpCode := 0x4D
def PUSHDATA4 : OpCode := 0x4E
def PUSHM1 : OpCode := 0x4F
def PUSH1 : OpCode := 0x51
def PUSHT : OpCode := PUSH1
def PUSH2 : OpCode := 0x52
def PUSH3 : OpCode := 0x53
def PUSH4 : OpCode := 0x54
def PUSH5 : OpCode := 0x55
def PUSH6 : OpCode := 0x56
def PUSH7 : OpCode := 0x57
def PUSH8 : OpCode := 0x58
def PUSH9 : OpCode := 0x59
def PUSH10 : OpCode := 0x5A
def PUSH11 : OpCode := 0x5B
def PUSH12 : OpCode := 0x5C
def PUSH13 : OpCode := 0x5D
def PUSH14 : OpCode := 0x5E
def PUSH15 : OpCode := 0x5F
def PUSH16 : OpCode := 0x60
def NOP : OpCode := 0x61
def JMP : OpCode := 0x62
def JMPIF : OpCode := 0x63
def JMPIFNOT : OpCode := 0x64
def CALL : OpCode := 0x65
def RET : OpCode := 0x66
def APPCALL : OpCode := 0x67
def SYSCALL : OpCode := 0x68
def TAILCALL : OpCode := 0x69
def DUPFROMALTSTACK : OpCode := 0x6A
def TOALTSTACK : OpCode := 0x6B
def FROMALTSTACK : OpCode := 0x6C
def XDROP : OpCode := 0x6D
def XSWAP : OpCode := 0x72
def XTUCK : OpCode := 0x73
def DEPTH : OpCode := 0x74
def DROP : OpCode := 0x75
def DUP : OpCode := 0x76
def NIP : OpCode := 0x77
def OVER : OpCode := 0x78
def PICK : OpCode := 0x79
def ROLL : OpCode := 0x7A
def ROT : OpCode := 0x7B
def SWAP : OpCode := 0x7C
def TUCK : OpCode := 0x7D
def CAT : OpCode := 0x7E
def SUBSTR : OpCode := 0x7F
def LEFT : OpCode := 0x80
def RIGHT : OpCode := 0x81
def SIZE : OpCode := 0x82
def INVERT : OpCode := 0x83
def AND : OpCode := 0x84
def OR : OpCode := 0x85
def XOR : OpCode := 0x86
def EQUAL : OpCode := 0x87
def INC : OpCode := 0x8B
def DEC : OpCode := 0x8C
def SIGN : OpCode := 0x8D
def NEGATE : OpCode := 0x8F
def ABS : OpCode := 0x90
def NOT : OpCode := 0x91
def NZ : OpCode := 0x92
def ADD : OpCode := 0x93
def SUB : OpCode := 0x94
def MUL : OpCode := 0x95
def DIV : OpCode := 0x96
def MOD : OpCode := 0x97
def SHL : OpCode := 0x98
def SHR : OpCode := 0x99
def BOOLAND : OpCode := 0x9A
def BOOLOR : OpCode := 0x9B
def NUMEQUAL : OpCode := 0x9C
def NUMNOTEQUAL : OpCode := 0x9E
def LT : OpCode := 0x9F
def GT : OpCode := 0xA0
def LTE : OpCode := 0xA1
def GTE : OpCode := 0xA2
def MIN : OpCode := 0xA3
def MAX : OpCode := 0xA4
def WITHIN : OpCode := 0xA5
def SHA1 : OpCode := 0xA7
def SHA256 : OpCode := 0xA8
def HASH160 : OpCode := 0xA9
def HASH256 : OpCode := 0xAA
def CHECKSIG : OpCode := 0xAC
def CHECKMULTISIG : OpCode := 0xAE
def ARRAYSIZE : OpCode := 0xC0
def PACK : OpCode := 0xC1
def UNPACK : OpCode := 0xC2
def PICKITEM : OpCode := 0xC3
def SETITEM : OpCode := 0xC4
def NEWARRAY : OpCode := 0xC5
def NEWSTRUCT : OpCode := 0xC6
def THROW : OpCode := 0xF0
def THROWIFNOT : OpCode := 0xF1

/-- The names declared in the `const` block, in source order (`PUSHF` and
`PUSHT` are aliases of `PUSH0` and `PUSH1`). -/
def declaredOpCodes : List OpCode :=
  [PUSH0, PUSHF, PUSHBYTES1, PUSHBYTES75, PUSHDATA1, PUSHDATA2, PUSHDATA4,
   PUSHM1, PUSH1, PUSHT, PUSH2, PUSH3, PUSH4, PUSH5, PUSH6, PUSH7, PUSH8,
   PUSH9, PUSH10, PUSH11, PUSH12, PUSH13, PUSH14, PUSH15, PUSH16, NOP, JMP,
   JMPIF, JMPIFNOT, CALL, RET, APPCALL, SYSCALL, TAILCALL, DUPFROMALTSTACK,
   TOALTSTACK, FROMALTSTACK, XDROP, XSWAP, XTUCK, DEPTH, DROP, DUP, NIP, OVER,
   PICK, ROLL, ROT, SWAP, TUCK, CAT, SUBSTR, LEFT, RIGHT, SIZE, INVERT, AND,
   OR, XOR, EQUAL, INC, DEC, SIGN, NEGATE, ABS, NOT, NZ, ADD, SUB, MUL, DIV,
   MOD, SHL, SHR, BOOLAND, BOOLOR, NUMEQUAL, NUMNOTEQUAL, LT, GT, LTE, GTE,
   MIN, MAX, WITHIN, SHA1, SHA256, HASH160, HASH256, CHECKSIG, CHECKMULTISIG,
   ARRAYSIZE, PACK, UNPACK, PICKITEM, SETITEM, NEWARRAY, NEWSTRUCT, THROW,
   THROWIFNOT]

/-- Go `var op2Strings = map[OpCode]string{...}`, as the list of its
key/value pairs in source order. -/
def op2Strings : List (OpCode × ByteSeq) :=
  [(PUSH0, lit "PUSH0      "),
   (PUSHBYTES1, lit "PUSHBYTES1 "),
   (PUSHBYTES75, lit "PUSHBYTES75"),
   (PUSHDATA1, lit "PUSHDATA1  "),
   (PUSHDATA2, lit "PUSHDATA2  "),
   (PUSHDATA4, lit "PUSHDATA4  "),
   (PUSHM1, lit "PUSHM1     "),
   (PUSH1, lit "PUSH1      "),
   (PUSH2, lit "PUSH2      "),
   (PUSH3, lit "PUSH3      "),
   (PUSH4, lit "PUSH4      "),
   (PUSH5, lit "PUSH5      "),
   (PUSH6, lit "PUSH6      "),
   (PUSH7, lit "PUSH7      "),
   (PUSH8, lit "PUSH8      "),
   (PUSH9, lit "PUSH9      "),
   (PUSH10, lit "PUSH10     "),
   (PUSH11, lit "PUSH11     "),
   (PUSH12, lit "PUSH12     "),
   (PUSH13, lit "PUSH13     "),
   (PUSH14, lit "PUSH14     "),
   (PUSH15, lit "PUSH15     "),
   (PUSH16, lit "PUSH16     "),
   (NOP, lit "NOP        "),
   (JMP, lit "JMP        "),
   (JMPIF, lit "JMPIF      "),
   (JMPIFNOT, lit "JMPIFNOT   "),
   (CALL, lit "CALL       "),
   (RET, lit "RET        "),
   (APPCALL, lit "APPCALL    "),
   (SYSCALL, lit "SYSCALL    "),
   (TAILCALL, lit "TAILCALL   "),
   (DUPFROMALTSTACK, lit "DUPFROMALTS"),
   (TOALTSTACK, lit "TOALTSTACK "),
   (FROMALTSTACK, lit "FROMALTSTAC"),
   (XDROP, lit "XDROP      "),
   (XSWAP, lit "XSWAP      "),
   (XTUCK, lit "XTUCK      "),
   (DEPTH, lit "DEPTH      "),
   (DROP, lit "DROP       "),
   (DUP, lit "DUP        "),
   (NIP, lit "NIP        "),
   (OVER, lit "OVER       "),
   (PICK, lit "PICK       "),
   (ROLL, lit "ROLL       "),
   (ROT, lit "ROT        "),
   (SWAP, lit "SWAP       "),
   (TUCK, lit "TUCK       "),
   (CAT, lit "CAT        "),
   (SUBSTR, lit "SUBSTR     "),
   (LEFT, lit "LEFT       "),
   (RIGHT, lit "RIGHT      "),
   (SIZE, lit "SIZE       "),
   (INVERT, lit "INVERT     "),
   (AND, lit "AND        "),
   (OR, lit "OR         "),
   (XOR, lit "XOR        "),
   (EQUAL, lit "EQUAL      "),
   (INC, lit "INC        "),
   (DEC, lit "DEC        "),
   (SIGN, lit "SIGN       "),
   (NEGATE, lit "NEGATE     "),
   (ABS, lit "ABS        "),
   (NOT, lit "NOT        "),
   (NZ, lit "NZ         "),
   (ADD, lit "ADD        "),
   (SUB, lit "SUB        "),
   (MUL, lit "MUL        "),
   (DIV, lit "DIV        "),
   (MOD, lit "MOD        "),
   (SHL, lit "SHL        "),
   (SHR, lit "SHR        "),
   (BOOLAND, lit "BOOLAND    "),
   (BOOLOR, lit "BOOLOR     "),
   (NUMEQUAL, lit "NUMEQUAL   "),
   (NUMNOTEQUAL, lit "NUMNOTEQUAL"),
   (LT, lit "LT         "),
   (GT, lit "GT         "),
   (LTE, lit "LTE        "),
   (GTE, lit "GTE        "),
   (MIN, lit "MIN        "),
   (MAX, lit "MAX        "),
   (WITHIN, lit "WITHIN     "),
   (SHA1, lit "SHA1       "),
   (SHA256, lit "SHA256     "),
   (HASH160, lit "HASH160    "),
   (HASH256, lit "HASH256    "),
   (CHECKSIG, lit "CHECKSIG   "),
   (CHECKMULTISIG, lit "CHECKMULTIS"),
   (ARRAYSIZE, lit "ARRAYSIZE  "),
   (PACK, lit "PACK       "),
   (UNPACK, lit "UNPACK     "),
   (PICKITEM, lit "PICKITEM   "),
   (SETITEM, lit "SETITEM    "),
   (NEWARRAY, lit "NEWARRAY   "),
   (NEWSTRUCT, lit "NEWSTRUCT  "),
   (THROW, lit "THROW      "),
   (THROWIFNOT, lit "THROWIFNOT ")]

/-- The map index expression `op2Strings[code]`: the value stored under
`code`, or the zero value of `string` (the empty string) when the key is
absent. -/
def op2StringsAt (code : OpCode) : ByteSeq :=
  match op2Strings.lookup code with
  | some s => s
  | none => []

/-- Go `encoding/hex`: `const hextable = "0123456789abcdef"`. -/
def hextable : ByteSeq := lit "0123456789abcdef"

/-- The indexing `hextable[i]`; every index used below is less than 16. -/
def hextableAt (i : Nat) : Byte := hextable.getD i 0

/-- Go `hex.EncodeToString`: for each source byte `v` the two characters
`hextable[v>>4]` and `hextable[v&0x0f]`, in that order. -/
def EncodeToString : ByteSeq → ByteSeq
  | [] => []
  | v :: src => hextableAt (v.val >>> 4) :: hextableAt (v.val &&& 0x0f) :: EncodeToString src

/-- Go `type Op struct { Code OpCode; Arg []byte }`. -/
structure Op where
  Code : OpCode
  Arg : ByteSeq
deriving DecidableEq, Repr

/-- Go `func (op *Op) String() string`:
`fmt.Sprintf("%s\n%s", op2Strings[op.Code], hex.EncodeToString(op.Arg))`. -/
def Op.String (op : Op) : ByteSeq :=
  op2StringsAt op.Code ++ lit "\n" ++ EncodeToString op.Arg

/-- Modelled from the spec: the byte serialization of an instruction (§4.2,
"concatenation of the single opcode byte followed by `arg` verbatim"), which
`script/opcode.go` does not contain. -/
def Op.serialize (op : Op) : ByteSeq :=
  [op.Code] ++ op.Arg

/-- The lowercase hexadecimal digit of a nibble: `0-9`, then `a-f`. -/
def lowerHexDigit (n : Nat) : Byte :=
  if n < 10 then Fin.ofNat (0x30 + n) else Fin.ofNat (0x61 + (n - 10))

/-- The line feed character. -/
def newline : Byte := 0x0A

end neogo.script

/-! ## Further concrete inputs and readings -/

namespace neogo

/-- An encoding read back as an attribute: the first byte is the usage, the
remaining bytes are the data; the empty sequence is no encoding.  This
reading is not a function of `model.go`. -/
def TxAttr.fromBytes : ByteSeq → Option TxAttr
  | [] => none
  | u :: d => some { Usage := u, Data := d }

/-- The upper-case form of an ASCII character: `a-z` (`0x61`-`0x7A`) move
down by `0x20`, every other character stays. -/
def upperCase (c : Byte) : Byte :=
  if 0x61 ≤ c ∧ c ≤ 0x7A then c - 0x20 else c

end neogo

/-! # Theorems -/

namespace neogo

/-- C1. For every usage byte `u` and every byte sequence `d`, the encoding of
the attribute `{Usage: u, Data: d}` is the byte `u` followed by `d` verbatim:
no usage value is rejected, nothing is inserted between them, and the length
is `1 + len(d)`.  In particular `{0x20, [0xDE, 0xAD]}` encodes to
`[0x20, 0xDE, 0xAD]`. -/
theorem TxAttr_Bytes_usage_then_data (u : Byte) (d : ByteSeq) :
    TxAttr.Bytes { Usage := u, Data := d } = u :: d ∧
    (TxAttr.Bytes { Usage := u, Data := d }).length = 1 + d.length ∧
    TxAttr.Bytes { Usage := 0x20, Data := [0xDE, 0xAD] } = [0x20, 0xDE, 0xAD] := by
  refine ⟨rfl, ?_, rfl⟩
  simp [TxAttr.Bytes, Nat.add_comm]

end neogo

namespace neogo.script

set_option maxRecDepth 100000 in
/-- Every byte: the two characters the encoder writes for it are the
lowercase digits of its high and low nibble, and neither is a line feed. -/
theorem hextableAt_nibbles :
    ∀ v : Byte,
      hextableAt (v.val >>> 4) = lowerHexDigit (v.val / 16) ∧
      hextableAt (v.val &&& 0x0f) = lowerHexDigit (v.val % 16) ∧
      hextableAt (v.val >>> 4) ≠ newline ∧ hextableAt (v.val &&& 0x0f) ≠ newline := by
  decide

/-- The encoder writes two characters per byte. -/
theorem EncodeToString_length (src : ByteSeq) :
    (EncodeToString src).length = 2 * src.length := by
  induction src with
  | nil => rfl
  | cons v src ih => simp [EncodeToString, ih]; omega

/-- The characters at positions `2k` and `2k+1` of the encoding are the
lowercase digits of the high and the low nibble of the `k`-th byte. -/
theorem EncodeToString_digits (src : ByteSeq) :
    ∀ (k : Nat) (v : Byte), src[k]? = some v →
      (EncodeToString src)[2 * k]? = some (lowerHexDigit (v.val / 16)) ∧
      (EncodeToString src)[2 * k + 1]? = some (lowerHexDigit (v.val % 16)) := by
  induction src with
  | nil => intro k v h; simp at h
  | cons w src ih =>
    intro k v h
    cases k with
    | zero =>
      simp at h
      subst h
      simp [EncodeToString, (hextableAt_nibbles w).1, (hextableAt_nibbles w).2.1]
    | succ k =>
      simp at h
      have := ih k v h
      have e : 2 * (k + 1) = 2 * k + 1 + 1 := by omega
      simpa [EncodeToString, e] using this

/-- The encoding holds no line feed. -/
theorem EncodeToString_count_newline (src : ByteSeq) :
    (EncodeToString src).count newline = 0 := by
  induction src with
  | nil => rfl
  | cons v src ih =>
    have h := hextableAt_nibbles v
    simp only [EncodeToString]
    rw [List.count_cons_of_ne h.2.2.1.symm, List.count_cons_of_ne h.2.2.2.symm, ih]

set_option maxRecDepth 100000 in
/-- The keys of the map literal are pairwise distinct, as Go requires of a
map literal with constant keys. -/
theorem op2Strings_keys_nodup : (op2Strings.map Prod.fst).Nodup := by
  decide

set_option maxRecDepth 100000 in
/-- No mnemonic holds a line feed. -/
theorem op2StringsAt_count_newline :
    ∀ code : OpCode, (op2StringsAt code).count newline = 0 := by
  decide

set_option maxRecDepth 100000 in
/-- C2. For every byte `b`: when `b` is the value of a declared opcode
constant (`PUSH0` ... `THROWIFNOT`, the aliases `PUSHF` and `PUSHT`
included), `op2Strings[b]` has exactly 11 characters, at least one of them
not a space; when `b` is the value of no declared constant, `op2Strings[b]`
is the empty string. -/
theorem op2Strings_fixed_width_or_blank :
    ∀ b : Byte,
      (b ∈ declaredOpCodes →
        (op2StringsAt b).length = 11 ∧ ∃ c ∈ op2StringsAt b, c ≠ 0x20) ∧
      (b ∉ declaredOpCodes → op2StringsAt b = []) := by
  decide

/-- C3. For every instruction `op`, `op.String()` is the mnemonic
`op2Strings[op.Code]`, one line feed, and the hexadecimal encoding of
`op.Arg`; that encoding has `2 * len(Arg)` characters, the `k`-th byte of
`Arg` giving the lowercase digit of its high nibble at position `2k` and of
its low nibble at position `2k+1`; the output holds exactly one line feed,
so it has exactly two lines. -/
theorem Op_String_two_lines (op : Op) :
    op.String = op2StringsAt op.Code ++ [newline] ++ EncodeToString op.Arg ∧
    (EncodeToString op.Arg).length = 2 * op.Arg.length ∧
    (∀ (k : Nat) (v : Byte), op.Arg[k]? = some v →
      (EncodeToString op.Arg)[2 * k]? = some (lowerHexDigit (v.val / 16)) ∧
      (EncodeToString op.Arg)[2 * k + 1]? = some (lowerHexDigit (v.val % 16))) ∧
    op.String.count newline = 1 := by
  refine ⟨rfl, EncodeToString_length _, EncodeToString_digits _, ?_⟩
  have e : op.String = op2StringsAt op.Code ++ [newline] ++ EncodeToString op.Arg := rfl
  rw [e, List.count_append, List.count_append, op2StringsAt_count_newline,
    EncodeToString_count_newline]
  rfl

set_option maxRecDepth 100000 in
/-- A code that is no key of the table looks up the empty string. -/
theorem op2StringsAt_absent :
    ∀ code : OpCode, code ∉ op2Strings.map Prod.fst → op2StringsAt code = [] := by
  decide

/-- C4. Disassembly is total: for every instruction whose code is not a key
of the mnemonic table, and every argument, `op.String()` is the empty first
line, a line feed, and the lowercase hexadecimal encoding of the argument. -/
theorem Op_String_unknown_code (op : Op)
    (h : op.Code ∉ op2Strings.map Prod.fst) :
    op2StringsAt op.Code = [] ∧
    op.String = [newline] ++ EncodeToString op.Arg := by
  have e := op2StringsAt_absent op.Code h
  refine ⟨e, ?_⟩
  show op2StringsAt op.Code ++ lit "\n" ++ EncodeToString op.Arg = _
  rw [e]
  rfl

set_option maxRecDepth 100000 in
/-- C4 at the codes `0x02` and `0xFF`, which are not keys of the table. -/
theorem Op_String_unknown_code_witness :
    ((0x02 : OpCode) ∉ op2Strings.map Prod.fst ∧
      Op.String { Code := 0x02, Arg := [0xDE, 0xAD] } = lit "\ndead") ∧
    ((0xFF : OpCode) ∉ op2Strings.map Prod.fst ∧
      Op.String { Code := 0xFF, Arg := [] } = lit "\n") :=
  ⟨⟨by decide,
    (Op_String_unknown_code { Code := 0x02, Arg := [0xDE, 0xAD] } (by decide)).2.trans
      (by decide)⟩,
   ⟨by decide,
    (Op_String_unknown_code { Code := 0xFF, Arg := [] } (by decide)).2.trans (by decide)⟩⟩

/-- C5. For every instruction `{code, arg}` the serialization is the opcode
byte followed by `arg` verbatim: it is defined for every instruction, has
length `1 + len(arg)`, and its first byte is `code`. -/
theorem Op_serialize_code_then_arg (code : OpCode) (arg : ByteSeq) :
    Op.serialize { Code := code, Arg := arg } = code :: arg ∧
    (Op.serialize { Code := code, Arg := arg }).length = 1 + arg.length ∧
    (Op.serialize { Code := code, Arg := arg }).head? = some code := by
  refine ⟨rfl, ?_, rfl⟩
  simp [Op.serialize, Nat.add_comm]

end neogo.script

namespace neogo

/-- The exact reader on the value strings of the scenario and on a string
that is no numeral. -/
theorem parseDecimal_examples :
    parseDecimal (lit "1.0") = .ok 1 ∧ parseDecimal (lit "2.5") = .ok (5 / 2) ∧
    parseDecimal (lit "0.5") = .ok (1 / 2) ∧
    parseDecimal (lit "xyz") = .error .ErrSyntax := by
  have h₁ : decimalParts (lit "1.0") = some (10, 1) := by decide
  have h₂ : decimalParts (lit "2.5") = some (25, 1) := by decide
  have h₃ : decimalParts (lit "0.5") = some (5, 1) := by decide
  have h₄ : decimalParts (lit "xyz") = none := by decide
  refine ⟨?_, ?_, ?_, ?_⟩
  · simp only [parseDecimal, h₁]; norm_num
  · simp only [parseDecimal, h₂]; norm_num
  · simp only [parseDecimal, h₃]; norm_num
  · simp only [parseDecimal, h₄]

/-- Resolving a fresh candidate whose value string parses fills its cache. -/
theorem candidate_Value (s : String) (v : ℚ) (h : parseDecimal (lit s) = .ok v) :
    (candidate s).Value parseDecimal = ((v, none), resolvedCandidate s v) := by
  simp [UTXO.Value, candidate, UTXO.fresh, resolvedCandidate, h]

section UTXOTheorems

variable {F E : Type} [Zero F]

/-- C6. `Value` is idempotent and memoized: when a call on `utxo` succeeds
with `v` and leaves `utxo'`, the cache of `utxo'` holds `v`, the next call on
`utxo'` succeeds with the same `v` and changes nothing, and the result of
that next call is `v` whatever parser it is given and whatever string stands
in `Vout.Value`: it is read from the cache, not parsed. -/
theorem UTXO_Value_idempotent (ParseFloat : ByteSeq → Except E F)
    (utxo utxo' : UTXO F) (v : F)
    (h : utxo.Value ParseFloat = ((v, none), utxo')) :
    utxo'.value = some v ∧
    utxo'.Value ParseFloat = ((v, none), utxo') ∧
    ∀ (ParseFloat' : ByteSeq → Except E F) (s : ByteSeq),
      (UTXO.Value ParseFloat'
        { utxo' with Vout := { utxo'.Vout with Value := s } }).1 = (v, none) := by
  have hc : utxo'.value = some v := by
    unfold UTXO.Value at h
    split at h
    · split at h
      · simp at h
      · simp only [Prod.mk.injEq] at h
        obtain ⟨⟨hv, -⟩, hu⟩ := h
        subst hu; subst hv; rfl
    · rename_i w hw
      simp only [Prod.mk.injEq] at h
      obtain ⟨⟨hv, -⟩, hu⟩ := h
      subst hu; subst hv; exact hw
  refine ⟨hc, ?_, ?_⟩
  · simp [UTXO.Value, hc]
  · intro P s
    simp [UTXO.Value, hc]

/-- C7. When the cache is empty and `Vout.Value` does not parse, `Value`
returns the parse error with the number 0 and leaves the object as it was,
the cache still empty; the outcome of a later call is again the outcome of
a parse of `Vout.Value`; and for every UTXO with an empty cache, a cache
filled by `Value` holds the result of a successful parse. -/
theorem UTXO_Value_parse_failure (ParseFloat : ByteSeq → Except E F)
    (utxo : UTXO F) (err : E) (hc : utxo.value = none)
    (hp : ParseFloat utxo.Vout.Value = .error err) :
    utxo.Value ParseFloat = ((0, some err), utxo) ∧
    (utxo.Value ParseFloat).2.value = none ∧
    (∀ ParseFloat' : ByteSeq → Except E F,
      UTXO.Value ParseFloat' (utxo.Value ParseFloat).2 =
        match ParseFloat' utxo.Vout.Value with
        | .error e => ((0, some e), utxo)
        | .ok val => ((val, none), { utxo with value := some val })) ∧
    (∀ (u : UTXO F) (v : F), u.value = none →
      (u.Value ParseFloat).2.value = some v → ParseFloat u.Vout.Value = .ok v) := by
  have e : utxo.Value ParseFloat = ((0, some err), utxo) := by
    simp [UTXO.Value, hc, hp]
  refine ⟨e, by rw [e]; exact hc, ?_, ?_⟩
  · intro P
    rw [e]
    simp only [UTXO.Value, hc]
  · intro u v hu hv
    unfold UTXO.Value at hv
    rw [hu] at hv
    cases hq : ParseFloat u.Vout.Value with
    | error e' => simp [hq, hu] at hv
    | ok val =>
      simp [hq] at hv
      rw [hv]

/-- A method call does not change the exported fields. -/
theorem UTXO_call_Vout (ParseFloat : ByteSeq → Except E F) (utxo : UTXO F)
    (m : UTXO.Method) : (utxo.call ParseFloat m).Vout = utxo.Vout := by
  cases m
  · simp only [UTXO.call, UTXO.Value]
    split
    · split <;> rfl
    · rfl
  · rfl

/-- A method call keeps the cache invariant. -/
theorem UTXO_call_CacheOk (ParseFloat : ByteSeq → Except E F) (utxo : UTXO F)
    (m : UTXO.Method) (h : utxo.CacheOk ParseFloat) :
    (utxo.call ParseFloat m).CacheOk ParseFloat := by
  cases m
  · simp only [UTXO.call, UTXO.Value]
    split
    · split
      · exact h
      · rename_i val hq
        intro v hv
        simp at hv
        subst hv
        exact hq
    · exact h
  · exact h

/-- Method calls from a fresh UTXO keep the exported fields and the cache
invariant. -/
theorem UTXO_calls_reachable (ParseFloat : ByteSeq → Except E F)
    (ms : List UTXO.Method) (utxo : UTXO F) (h : utxo.CacheOk ParseFloat) :
    (utxo.calls ParseFloat ms).Vout = utxo.Vout ∧
    (utxo.calls ParseFloat ms).CacheOk ParseFloat := by
  induction ms generalizing utxo with
  | nil => exact ⟨rfl, h⟩
  | cons m ms ih =>
    have := ih (utxo.call ParseFloat m) (UTXO_call_CacheOk ParseFloat utxo m h)
    simp only [UTXO.calls, List.foldl_cons] at this ⊢
    exact ⟨this.1.trans (UTXO_call_Vout ParseFloat utxo m), this.2⟩

/-- Under the cache invariant a successful `Value` call returns the parse of
`Vout.Value`. -/
theorem UTXO_Value_of_CacheOk (ParseFloat : ByteSeq → Except E F)
    (utxo : UTXO F) (h : utxo.CacheOk ParseFloat) (v : F)
    (hv : (utxo.Value ParseFloat).1 = (v, none)) :
    ParseFloat utxo.Vout.Value = .ok v := by
  unfold UTXO.Value at hv
  split at hv
  · split at hv
    · simp at hv
    · rename_i val hq
      simp at hv
      rw [hq, hv]
  · rename_i w hw
    simp at hv
    exact h v (hv ▸ hw)

/-- C8. The cache invariant (the cache is empty or holds the parse of
`Vout.Value`) holds for a freshly created UTXO and is kept by both methods,
`Value` and `TxHex`; hence after any sequence of method calls on a fresh
UTXO a successful `Value` call returns exactly the parse of the `Vout.Value`
string. -/
theorem UTXO_cache_invariant (ParseFloat : ByteSeq → Except E F) :
    (∀ (txid : ByteSeq) (vout : Vout),
      (UTXO.fresh txid vout : UTXO F).CacheOk ParseFloat) ∧
    (∀ utxo : UTXO F, utxo.CacheOk ParseFloat →
      (utxo.Value ParseFloat).2.CacheOk ParseFloat ∧ utxo.TxHex.2.CacheOk ParseFloat) ∧
    (∀ (txid : ByteSeq) (vout : Vout) (ms : List UTXO.Method) (v : F),
      (((UTXO.fresh txid vout : UTXO F).calls ParseFloat ms).Value ParseFloat).1 = (v, none) →
      ParseFloat vout.Value = .ok v) := by
  have fresh_ok : ∀ (txid : ByteSeq) (vout : Vout),
      (UTXO.fresh txid vout : UTXO F).CacheOk ParseFloat := by
    intro txid vout v hv
    simp [UTXO.fresh] at hv
  refine ⟨fresh_ok, ?_, ?_⟩
  · intro utxo h
    exact ⟨UTXO_call_CacheOk ParseFloat utxo .Value h,
      UTXO_call_CacheOk ParseFloat utxo .TxHex h⟩
  · intro txid vout ms v hv
    have r := UTXO_calls_reachable ParseFloat ms (UTXO.fresh txid vout) (fresh_ok txid vout)
    have := UTXO_Value_of_CacheOk ParseFloat _ r.2 v hv
    rw [r.1] at this
    exact this

end UTXOTheorems

/-- C6 at the fresh candidate with value string `"2.5"`: the first call
parses and fills the cache, the second returns the cached number, also after
the value string is replaced by `"xyz"`. -/
theorem UTXO_Value_idempotent_witness :
    (candidate "2.5").Value parseDecimal =
      ((5 / 2, none), resolvedCandidate "2.5" (5 / 2)) ∧
    (resolvedCandidate "2.5" (5 / 2)).Value parseDecimal =
      ((5 / 2, none), resolvedCandidate "2.5" (5 / 2)) ∧
    (UTXO.Value parseDecimal
      { resolvedCandidate "2.5" (5 / 2) with
        Vout := { (resolvedCandidate "2.5" (5 / 2)).Vout with Value := lit "xyz" } }).1 =
      (5 / 2, none) := by
  have h := candidate_Value "2.5" (5 / 2) parseDecimal_examples.2.1
  obtain ⟨-, h₂, h₃⟩ := UTXO_Value_idempotent parseDecimal _ _ _ h
  exact ⟨h, h₂, h₃ parseDecimal (lit "xyz")⟩

/-- C7 at the fresh candidate with value string `"xyz"`: the call returns the
syntax error and the candidate is unchanged. -/
theorem UTXO_Value_parse_failure_witness :
    (candidate "xyz").value = none ∧
    parseDecimal (candidate "xyz").Vout.Value = .error .ErrSyntax ∧
    (candidate "xyz").Value parseDecimal = ((0, some .ErrSyntax), candidate "xyz") :=
  ⟨rfl, parseDecimal_examples.2.2.2,
    (UTXO_Value_parse_failure parseDecimal (candidate "xyz") .ErrSyntax rfl
      parseDecimal_examples.2.2.2).1⟩

end neogo

namespace neogo

set_option maxRecDepth 100000 in
/-- A character has a digit value exactly when it is one of `0-9a-fA-F`. -/
theorem fromHexChar_none_iff :
    ∀ c : Byte, fromHexChar c = none ↔ ¬ isHexDigit c := by
  decide

set_option maxRecDepth 100000 in
/-- A digit value is less than 16. -/
theorem fromHexChar_lt :
    ∀ c : Byte, ((fromHexChar c).getD 0).val < 16 := by
  decide

set_option maxRecDepth 100000 in
/-- Two nibbles make the byte `16 * a + b`. -/
theorem shift_or_nibbles :
    ∀ a : Byte, a.val < 16 → ∀ b : Byte, b.val < 16 →
      ((a <<< 4) ||| b).val = 16 * a.val + b.val := by
  decide

/-- The byte decoded from two digits is 16 times the first digit's value
plus the second's. -/
theorem fromHexChar_pair (p q a b : Byte) (hp : fromHexChar p = some a)
    (hq : fromHexChar q = some b) :
    ((a <<< 4) ||| b).val = 16 * a.val + b.val := by
  have ha := fromHexChar_lt p
  have hb := fromHexChar_lt q
  rw [hp] at ha
  rw [hq] at hb
  exact shift_or_nibbles a ha b hb

/-- Decoding fails exactly on an odd length or a character that is not a
hexadecimal digit. -/
theorem DecodeString_error_iff :
    ∀ s : ByteSeq, (DecodeString s).2 ≠ none ↔
      (s.length % 2 = 1 ∨ ∃ c ∈ s, ¬ isHexDigit c)
  | [] => by simp [DecodeString]
  | [c] => by
    simp only [DecodeString]
    cases h : fromHexChar c <;> simp
  | p :: q :: src => by
    have ih := DecodeString_error_iff src
    have hp := fromHexChar_none_iff p
    have hq := fromHexChar_none_iff q
    simp only [DecodeString]
    cases h₁ : fromHexChar p with
    | none =>
      have := hp.mp h₁
      simp [this]
    | some a =>
      have np : isHexDigit p := by
        by_contra hn
        rw [hp.mpr hn] at h₁
        cases h₁
      cases h₂ : fromHexChar q with
      | none =>
        have := hq.mp h₂
        simp [this]
      | some b =>
        have nq : isHexDigit q := by
          by_contra hn
          rw [hq.mpr hn] at h₂
          cases h₂
        simp only [ih, List.length_cons, List.mem_cons, exists_eq_or_imp, np, nq,
          not_true_eq_false, false_or]
        have e : (src.length + 1 + 1) % 2 = src.length % 2 := by omega
        rw [e]

/-- A successful decoding has half the length of the string, and its `k`-th
byte is made of the `k`-th pair of digits. -/
theorem DecodeString_ok :
    ∀ s : ByteSeq, (DecodeString s).2 = none →
      (DecodeString s).1.length = s.length / 2 ∧
      ∀ k : Nat, k < s.length / 2 →
        ∃ p q hi lo b, s[2 * k]? = some p ∧ s[2 * k + 1]? = some q ∧
          fromHexChar p = some hi ∧ fromHexChar q = some lo ∧
          (DecodeString s).1[k]? = some b ∧ b.val = 16 * hi.val + lo.val
  | [] => by simp [DecodeString]
  | [c] => by
    simp only [DecodeString]
    cases h : fromHexChar c <;> simp
  | p :: q :: src => by
    intro h
    simp only [DecodeString] at h ⊢
    cases h₁ : fromHexChar p with
    | none => simp [h₁] at h
    | some a =>
      cases h₂ : fromHexChar q with
      | none => simp [h₁, h₂] at h
      | some b =>
        have pr := fromHexChar_pair p q a b h₁ h₂
        simp only [h₁, h₂] at h ⊢
        have ih := DecodeString_ok src h
        have e : (src.length + 1 + 1) / 2 = src.length / 2 + 1 := by omega
        refine ⟨by simp [ih.1, e], ?_⟩
        intro k hk
        cases k with
        | zero => exact ⟨p, q, a, b, _, by simp, by simp, h₁, h₂, by simp, pr⟩
        | succ k =>
          simp only [List.length_cons, e] at hk
          obtain ⟨p', q', hi, lo, b', h1, h2, h3, h4, h5, h6⟩ := ih.2 k (by omega)
          have e1 : 2 * (k + 1) = 2 * k + 1 + 1 := by omega
          refine ⟨p', q', hi, lo, b', ?_, ?_, h3, h4, ?_, h6⟩
          · rw [e1]; simpa using h1
          · rw [e1]; simpa using h2
          · simpa using h5

section TxHexTheorems

variable {F : Type}

end TxHexTheorems

end neogo


namespace neogo

section FrameTheorems

variable {F E : Type} [Zero F]

/-- C12. `Value` and `TxHex` treat the UTXO as read-only apart from the
one-time cache fill: after `Value` the fields `TransactionID` and `Vout`
(`Address`, `Asset`, `N`, `Value`) are as before, and the cache is either as
before or was empty and now holds the parse of `Vout.Value`; after `TxHex`
the whole object, cache included, is as before. -/
theorem UTXO_methods_frame (ParseFloat : ByteSeq → Except E F) (utxo : UTXO F) :
    (utxo.Value ParseFloat).2.TransactionID = utxo.TransactionID ∧
    (utxo.Value ParseFloat).2.Vout = utxo.Vout ∧
    ((utxo.Value ParseFloat).2.value = utxo.value ∨
      (utxo.value = none ∧ ∃ v, ParseFloat utxo.Vout.Value = .ok v ∧
        (utxo.Value ParseFloat).2.value = some v)) ∧
    utxo.TxHex.2 = utxo := by
  refine ⟨?_, ?_, ?_, rfl⟩
  · unfold UTXO.Value
    split
    · split <;> rfl
    · rfl
  · unfold UTXO.Value
    split
    · split <;> rfl
    · rfl
  · unfold UTXO.Value
    split
    · rename_i hc
      split
      · exact Or.inl rfl
      · rename_i val hq
        exact Or.inr ⟨hc, val, hq, rfl⟩
    · exact Or.inl rfl

/-- A second `Value` call right after a first returns what the first
returned: the cached number, or the same parse failure with the number 0. -/
theorem UTXO_Value_twice (ParseFloat : ByteSeq → Except E F) (utxo : UTXO F) :
    ((utxo.Value ParseFloat).2.Value ParseFloat).1 = (utxo.Value ParseFloat).1 := by
  cases hc : utxo.value with
  | none =>
    cases hq : ParseFloat utxo.Vout.Value with
    | error err => simp [UTXO.Value, hc, hq]
    | ok val => simp [UTXO.Value, hc, hq]
  | some v => simp [UTXO.Value, hc]

end FrameTheorems

section LessTheorems

variable {F E : Type} [Zero F] [Preorder F] [DecidableRel (fun x y : F => x < y)]

/-- C14. For every list with at least two elements and all indices `i` and
`j`, `Less(i, j)` returns false: both compared numbers are read from the
element at index 1, the second read returns the number of the first (the
resolved value, or 0 when the value does not parse), and the result is the
same for every pair of indices. -/
theorem utxoByValue_Less_false (ParseFloat : ByteSeq → Except E F)
    (a : utxoByValue F) (i j : Nat) (h : 2 ≤ a.length) :
    ∃ u a', a[1]? = some u ∧
      utxoByValue.Less ParseFloat a i j = some (false, a') ∧
      ((u.Value ParseFloat).2.Value ParseFloat).1.1 = (u.Value ParseFloat).1.1 ∧
      ∀ i' j' : Nat,
        utxoByValue.Less ParseFloat a i' j' = utxoByValue.Less ParseFloat a i j := by
  have h1 : 1 < a.length := h
  have e : a[1]? = some a[1] := List.getElem?_eq_getElem h1
  have tw := UTXO_Value_twice ParseFloat a[1]
  refine ⟨a[1], a.set 1 ((a[1].Value ParseFloat).2.Value ParseFloat).2, e, ?_,
    congrArg Prod.fst tw, fun _ _ => rfl⟩
  simp only [utxoByValue.Less, e, tw]
  simp

end LessTheorems

/-- C14 at the list with value strings `"1.0"`, `"2.5"`, `"0.5"` and the
indices 2 and 0. -/
theorem utxoByValue_Less_false_witness :
    2 ≤ [candidate "1.0", candidate "2.5", candidate "0.5"].length ∧
    ∃ u a', [candidate "1.0", candidate "2.5", candidate "0.5"][1]? = some u ∧
      utxoByValue.Less parseDecimal
        [candidate "1.0", candidate "2.5", candidate "0.5"] 2 0 = some (false, a') := by
  obtain ⟨u, a', h₁, h₂, -, -⟩ := utxoByValue_Less_false parseDecimal
    [candidate "1.0", candidate "2.5", candidate "0.5"] 2 0 (by decide)
  exact ⟨by decide, u, a', h₁, h₂⟩

/-- C13 on the code.  On the list with value strings `"1.0"`, `"2.5"`,
`"0.5"` the element at index 2 resolves to 1/2 and the element at index 0 to
1, so an ascending comparison of the two answers true; `Less(2, 0)` answers
false, having resolved the element at index 1 twice. -/
theorem utxoByValue_Less_at_2_0 :
    ((candidate "0.5").Value parseDecimal).1 = (1 / 2, none) ∧
    ((candidate "1.0").Value parseDecimal).1 = (1, none) ∧
    ((1 : ℚ) / 2 < 1) ∧
    utxoByValue.Less parseDecimal
      [candidate "1.0", candidate "2.5", candidate "0.5"] 2 0 =
      some (false, [candidate "1.0", resolvedCandidate "2.5" (5 / 2), candidate "0.5"]) := by
  obtain ⟨p₁, p₂, p₃, -⟩ := parseDecimal_examples
  have v₂ := candidate_Value "2.5" (5 / 2) p₂
  have r₂ : (resolvedCandidate "2.5" (5 / 2)).Value parseDecimal =
      ((5 / 2, none), resolvedCandidate "2.5" (5 / 2)) := by
    simp [UTXO.Value, resolvedCandidate]
  refine ⟨by rw [candidate_Value "0.5" (1 / 2) p₃], by rw [candidate_Value "1.0" 1 p₁],
    by norm_num, ?_⟩
  have e : ([candidate "1.0", candidate "2.5", candidate "0.5"] : utxoByValue ℚ)[1]? =
      some (candidate "2.5") := rfl
  simp only [utxoByValue.Less, e, v₂, r₂]
  simp

/-- C17. The attribute encoding is injective: two attributes with the same
encoding have the same usage and the same data; an attribute is read back
from its encoding by taking the first byte as usage and the remaining bytes
as data; and the encoding is never empty. -/
theorem TxAttr_Bytes_injective (x y : TxAttr) (h : x.Bytes = y.Bytes) :
    x.Usage = y.Usage ∧ x.Data = y.Data ∧
    TxAttr.fromBytes x.Bytes = some x ∧ x.Bytes ≠ [] := by
  have ex : x.Bytes = x.Usage :: x.Data := rfl
  have ey : y.Bytes = y.Usage :: y.Data := rfl
  rw [ex, ey] at h
  injection h with h₁ h₂
  exact ⟨h₁, h₂, rfl, by simp [ex]⟩

/-- C17 at the attribute `{0x20, [0xDE, 0xAD]}`. -/
theorem TxAttr_Bytes_injective_witness :
    TxAttr.Bytes { Usage := 0x20, Data := [0xDE, 0xAD] } = [0x20, 0xDE, 0xAD] ∧
    TxAttr.fromBytes [0x20, 0xDE, 0xAD] = some { Usage := 0x20, Data := [0xDE, 0xAD] } :=
  ⟨rfl, (TxAttr_Bytes_injective { Usage := 0x20, Data := [0xDE, 0xAD] }
    { Usage := 0x20, Data := [0xDE, 0xAD] } rfl).2.2.1⟩

end neogo

namespace neogo.script

set_option maxRecDepth 100000 in
/-- A key of the table looks up 11 characters. -/
theorem op2StringsAt_length :
    ∀ c : OpCode, c ∈ op2Strings.map Prod.fst → (op2StringsAt c).length = 11 := by
  decide

set_option maxRecDepth 1000000 in
/-- Two keys of the table with the same mnemonic are the same key. -/
theorem op2StringsAt_inj :
    ∀ c : OpCode, c ∈ op2Strings.map Prod.fst →
      ∀ d : OpCode, d ∈ op2Strings.map Prod.fst →
        op2StringsAt c = op2StringsAt d → c = d := by
  decide

/-- C15. The mnemonic table is injective: two distinct opcode values that
are keys of `op2Strings` have different mnemonics, each of 11 characters (so
the truncated names collide with nothing); hence two disassemblies of known
opcodes that agree are disassemblies of the same opcode. -/
theorem op2Strings_injective (c d : OpCode) (hc : c ∈ op2Strings.map Prod.fst)
    (hd : d ∈ op2Strings.map Prod.fst) (hne : c ≠ d) :
    op2StringsAt c ≠ op2StringsAt d ∧
    (op2StringsAt c).length = 11 ∧ (op2StringsAt d).length = 11 ∧
    ∀ x y : ByteSeq,
      Op.String { Code := c, Arg := x } ≠ Op.String { Code := d, Arg := y } := by
  have ne : op2StringsAt c ≠ op2StringsAt d :=
    fun h => hne (op2StringsAt_inj c hc d hd h)
  have lc := op2StringsAt_length c hc
  have ld := op2StringsAt_length d hd
  refine ⟨ne, lc, ld, ?_⟩
  intro x y h
  have h' : op2StringsAt c ++ (lit "\n" ++ EncodeToString x) =
      op2StringsAt d ++ (lit "\n" ++ EncodeToString y) := by
    simpa [Op.String, List.append_assoc] using h
  exact ne (List.append_inj h' (lc.trans ld.symm)).1

set_option maxRecDepth 100000 in
/-- C15 at the truncated names `DUPFROMALTSTACK` and `FROMALTSTACK`. -/
theorem op2Strings_injective_witness :
    DUPFROMALTSTACK ∈ op2Strings.map Prod.fst ∧
    FROMALTSTACK ∈ op2Strings.map Prod.fst ∧
    DUPFROMALTSTACK ≠ FROMALTSTACK ∧
    op2StringsAt DUPFROMALTSTACK = lit "DUPFROMALTS" ∧
    op2StringsAt FROMALTSTACK = lit "FROMALTSTAC" ∧
    op2StringsAt DUPFROMALTSTACK ≠ op2StringsAt FROMALTSTACK :=
  ⟨by decide, by decide, by decide, by decide, by decide,
    (op2Strings_injective DUPFROMALTSTACK FROMALTSTACK (by decide) (by decide)
      (by decide)).1⟩

end neogo.script

namespace neogo

set_option maxRecDepth 100000 in
/-- The two characters the encoder writes for a byte decode to that byte,
as written and in upper case. -/
theorem DecodeString_encoded_byte :
    ∀ v : Byte,
      DecodeString [script.hextableAt (v.val >>> 4), script.hextableAt (v.val &&& 0x0f)] =
        ([v], none) ∧
      DecodeString [upperCase (script.hextableAt (v.val >>> 4)),
        upperCase (script.hextableAt (v.val &&& 0x0f))] = ([v], none) := by
  decide

/-- Decoding continues after a pair of characters that decodes to a byte. -/
theorem DecodeString_pair (p q v : Byte) (src : ByteSeq)
    (h : DecodeString [p, q] = ([v], none)) :
    DecodeString (p :: q :: src) = (v :: (DecodeString src).1, (DecodeString src).2) := by
  simp only [DecodeString] at h ⊢
  cases hp : fromHexChar p with
  | none => simp [hp] at h
  | some a =>
    cases hq : fromHexChar q with
    | none => simp [hp, hq] at h
    | some b =>
      simp only [hp, hq, Prod.mk.injEq, List.cons.injEq, and_true] at h
      subst h
      rfl

/-- Decoding inverts the encoder. -/
theorem DecodeString_EncodeToString (b : ByteSeq) :
    DecodeString (script.EncodeToString b) = (b, none) := by
  induction b with
  | nil => rfl
  | cons v b ih =>
    simp only [script.EncodeToString]
    rw [DecodeString_pair _ _ v _ (DecodeString_encoded_byte v).1, ih]

/-- Decoding inverts the encoder followed by upper-casing. -/
theorem DecodeString_upperCase_EncodeToString (b : ByteSeq) :
    DecodeString ((script.EncodeToString b).map upperCase) = (b, none) := by
  induction b with
  | nil => rfl
  | cons v b ih =>
    simp only [script.EncodeToString, List.map_cons]
    rw [DecodeString_pair _ _ v _ (DecodeString_encoded_byte v).2, ih]

set_option maxRecDepth 100000 in
/-- Upper-casing changes exactly the digits `a`-`f` of the encoder's alphabet,
into `A`-`F`. -/
theorem upperCase_hextable :
    script.hextable.map upperCase = lit "0123456789ABCDEF" := by
  decide

section RoundTripTheorems

variable {F : Type}

/-- C16. Hex round trip: for every byte sequence `b`, a UTXO whose
`TransactionID` is the lowercase hexadecimal encoding of `b`, as
`hex.EncodeToString` writes it for the second line of `Op.String`, decodes
under `TxHex` without error to exactly `b`; the same holds when the encoding
is written in upper case (the digits `a-f` of the encoder's alphabet as
`A-F`). -/
theorem UTXO_TxHex_round_trip (b : ByteSeq) (vout : Vout) (value : Option F) :
    (UTXO.TxHex
      { TransactionID := script.EncodeToString b, Vout := vout, value := value }).1 =
      (b, none) ∧
    (UTXO.TxHex
      { TransactionID := (script.EncodeToString b).map upperCase, Vout := vout,
        value := value }).1 = (b, none) ∧
    script.hextable.map upperCase = lit "0123456789ABCDEF" :=
  ⟨DecodeString_EncodeToString b, DecodeString_upperCase_EncodeToString b,
    upperCase_hextable⟩

end RoundTripTheorems

end neogo

namespace neogo

/-- Writing the element of position `j` at `i` and the old element of
position `i` at `j` permutes a list. -/
theorem set_set_perm {α : Type} (l : List α) (i j : Nat) (hi : i < l.length)
    (hj : j < l.length) : ((l.set i l[j]).set j l[i]).Perm l := by
  have key : (l.set i l[j]).set j l[i] =
      List.ofFn ((fun k : Fin l.length => l[k.val]) ∘
        (Equiv.swap (⟨i, hi⟩ : Fin l.length) ⟨j, hj⟩)) := by
    apply List.ext_getElem
    · simp
    · intro k h₁ h₂
      have hk : k < l.length := by simpa using h₁
      simp only [List.getElem_set, List.getElem_ofFn, Function.comp_apply,
        Equiv.swap_apply_def, Fin.mk.injEq]
      by_cases kj : j = k
      · subst kj
        by_cases ki : j = i
        · subst ki; simp
        · simp [ki]
      · have kj' : k ≠ j := fun h => kj h.symm
        by_cases ki : i = k
        · subst ki; simp [kj]
        · have ki' : k ≠ i := fun h => ki h.symm
          simp [kj, ki, kj', ki']
  have id : List.ofFn (fun k : Fin l.length => l[k.val]) = l := List.ofFn_getElem l
  rw [key]
  exact (Equiv.Perm.ofFn_comp_perm _ _).trans (by rw [id])

section SwapTheorems

variable {F : Type}

/-- C18. For all valid indices `i` and `j`, `Swap(i, j)` returns normally;
in the resulting list position `i` holds the old element of position `j`,
position `j` the old element of position `i`, every other position its old
element; the length (`Len()`) is unchanged; the result is a permutation of
the original list; and `Swap(i, j)` on the result gives the original list. -/
theorem utxoByValue_Swap_exchanges (a : utxoByValue F) (i j : Nat)
    (hi : i < a.length) (hj : j < a.length) :
    ∃ b : utxoByValue F, a.Swap i j = some b ∧
      b.Len = a.Len ∧
      b[i]? = a[j]? ∧ b[j]? = a[i]? ∧
      (∀ k : Nat, k ≠ i → k ≠ j → b[k]? = a[k]?) ∧
      b.Perm a ∧
      utxoByValue.Swap b i j = some a := by
  have ei : a[i]? = some a[i] := List.getElem?_eq_getElem hi
  have ej : a[j]? = some a[j] := List.getElem?_eq_getElem hj
  have es : a.Swap i j = some ((a.set i a[j]).set j a[i]) := by
    simp only [utxoByValue.Swap, ei, ej]
  have bi : ((a.set i a[j]).set j a[i])[i]? = a[j]? := by
    by_cases h : j = i
    · subst h; simp [List.getElem?_set, hj]
    · simp [List.getElem?_set, h, hi, ej]
  have bj : ((a.set i a[j]).set j a[i])[j]? = a[i]? := by
    simp [List.getElem?_set, hj, ei]
  refine ⟨(a.set i a[j]).set j a[i], es, by simp [utxoByValue.Len], bi, bj, ?_,
    set_set_perm a i j hi hj, ?_⟩
  · intro k ki kj
    have ki' : ¬ i = k := fun h => ki h.symm
    have kj' : ¬ j = k := fun h => kj h.symm
    simp [List.getElem?_set, ki', kj']
  · rw [ei] at bj
    rw [ej] at bi
    simp only [utxoByValue.Swap, bi, bj]
    congr 1
    apply List.ext_getElem?
    intro k
    simp only [List.getElem?_set, List.length_set]
    by_cases kj : j = k
    · subst kj; simp [hj, ej]
    · by_cases ki : i = k
      · subst ki; simp [kj, hi, ei]
      · simp [kj, ki]

end SwapTheorems

/-- C18 at the list with value strings `"1.0"`, `"2.5"`, `"0.5"` and the
indices 0 and 2. -/
theorem utxoByValue_Swap_exchanges_witness :
    0 < [candidate "1.0", candidate "2.5", candidate "0.5"].length ∧
    2 < [candidate "1.0", candidate "2.5", candidate "0.5"].length ∧
    utxoByValue.Swap [candidate "1.0", candidate "2.5", candidate "0.5"] 0 2 =
      some [candidate "0.5", candidate "2.5", candidate "1.0"] ∧
    ∃ b : utxoByValue ℚ,
      utxoByValue.Swap [candidate "1.0", candidate "2.5", candidate "0.5"] 0 2 = some b ∧
      utxoByValue.Swap b 0 2 = some [candidate "1.0", candidate "2.5", candidate "0.5"] := by
  obtain ⟨b, h₁, -, -, -, -, -, h₂⟩ := utxoByValue_Swap_exchanges
    ([candidate "1.0", candidate "2.5", candidate "0.5"] : utxoByValue ℚ) 0 2
    (by decide) (by decide)
  exact ⟨by decide, by decide, rfl, b, h₁, h₂⟩

end neogo

namespace neogo

section SelectorTheorems

variable {F E : Type}

/-- With a filled cache `Value` returns the cached number and leaves the
object as it is. -/
theorem UTXO_Value_cached [Zero F] (ParseFloat : ByteSeq → Except E F) (utxo : UTXO F) (v : F)
    (h : utxo.value = some v) : utxo.Value ParseFloat = ((v, none), utxo) := by
  simp [UTXO.Value, h]

/-- Every candidate under consideration has a filled cache. -/
theorem resolvedCandidates_cached [Zero F] (ParseFloat : ByteSeq → Except E F)
    (candidates : List (UTXO F)) :
    ∀ u ∈ resolvedCandidates ParseFloat candidates, ∃ v, u.value = some v := by
  intro u hu
  simp only [resolvedCandidates, List.mem_filterMap] at hu
  obtain ⟨c, -, hc⟩ := hu
  cases hv : c.value with
  | some v =>
    simp only [UTXO.Value, hv, Option.some.injEq] at hc
    exact ⟨v, hc ▸ hv⟩
  | none =>
    cases hq : ParseFloat c.Vout.Value with
    | error err => simp [UTXO.Value, hv, hq] at hc
    | ok val =>
      simp only [UTXO.Value, hv, hq, Option.some.injEq] at hc
      exact ⟨val, hc ▸ rfl⟩

/-- Writing the element of a position back at that position leaves a list
as it is. -/
theorem list_set_getElem_self {α : Type} (l : List α) (i : Nat) (h : i < l.length) :
    l.set i l[i] = l := by
  apply List.ext_getElem?
  intro k
  simp only [List.getElem?_set]
  by_cases e : i = k
  · subst e; simp [h]
  · simp [e]

/-- On a list of at least two elements with filled caches, `Less` answers
false and leaves the list as it is, when `<` is irreflexive. -/
theorem utxoByValue_Less_cached [Zero F] [LT F] [DecidableRel (fun x y : F => x < y)]
    (ParseFloat : ByteSeq → Except E F)
    (hirr : ∀ x : F, ¬ x < x) (a : utxoByValue F) (i j : Nat) (h2 : 2 ≤ a.length)
    (hc : ∀ u ∈ a, ∃ v, u.value = some v) :
    utxoByValue.Less ParseFloat a i j = some (false, a) := by
  have h1 : 1 < a.length := h2
  have e : a[1]? = some a[1] := List.getElem?_eq_getElem h1
  obtain ⟨v, hv⟩ := hc a[1] (List.getElem_mem h1)
  have ev := UTXO_Value_cached ParseFloat a[1] v hv
  simp only [utxoByValue.Less, e, ev]
  simp [hirr v, list_set_getElem_self a 1 h1]

/-- The inner loop of the insertion sort leaves such a list as it is. -/
theorem insertionInner_cached [Zero F] [LT F] [DecidableRel (fun x y : F => x < y)]
    (ParseFloat : ByteSeq → Except E F)
    (hirr : ∀ x : F, ¬ x < x) (a : utxoByValue F) (j : Nat) (h2 : 2 ≤ a.length)
    (hc : ∀ u ∈ a, ∃ v, u.value = some v) :
    insertionInner ParseFloat j a = some a := by
  cases j with
  | zero => rfl
  | succ j =>
    simp only [insertionInner, utxoByValue_Less_cached ParseFloat hirr a (j + 1) j h2 hc]

/-- The outer loop of the insertion sort leaves such a list as it is. -/
theorem insertionOuter_cached [Zero F] [LT F] [DecidableRel (fun x y : F => x < y)]
    (ParseFloat : ByteSeq → Except E F)
    (hirr : ∀ x : F, ¬ x < x) (a : utxoByValue F) (h2 : 2 ≤ a.length)
    (hc : ∀ u ∈ a, ∃ v, u.value = some v) :
    ∀ indices : List Nat, insertionOuter ParseFloat indices a = some a
  | [] => rfl
  | i :: rest => by
    simp only [insertionOuter, insertionInner_cached ParseFloat hirr a i h2 hc]
    exact insertionOuter_cached ParseFloat hirr a h2 hc rest

/-- The sort driven by `utxoByValue.Less` leaves the candidates under
consideration in their input order, when `<` is irreflexive. -/
theorem considered_eq_resolvedCandidates [Zero F] [LT F] [DecidableRel (fun x y : F => x < y)]
    (ParseFloat : ByteSeq → Except E F)
    (hirr : ∀ x : F, ¬ x < x) (candidates : List (UTXO F)) :
    considered ParseFloat candidates = some (resolvedCandidates ParseFloat candidates) := by
  unfold considered insertionSort
  by_cases h2 : 2 ≤ (resolvedCandidates ParseFloat candidates).length
  · exact insertionOuter_cached ParseFloat hirr _ h2
      (resolvedCandidates_cached ParseFloat candidates) _
  · have e : (resolvedCandidates ParseFloat candidates).Len - 1 = 0 := by
      simp only [utxoByValue.Len]
      omega
    rw [e]
    rfl

/-- The accumulation loop succeeds when the running total and the outputs
still to come, added from left to right, reach the target; it then returns
the first outputs, and they reach the target with the running total. -/
theorem accumulate_reaches [Zero F] [Add F] [LE F] [DecidableRel (fun x y : F => x ≤ y)]
    (ParseFloat : ByteSeq → Except E F) (target : F) :
    ∀ (outputs : List (UTXO F)) (running : F),
      target ≤ outputs.foldl (fun r u => r + valueOf ParseFloat u) running →
      ∃ chosen, accumulate ParseFloat target running outputs = .ok chosen ∧
        chosen <+: outputs ∧
        target ≤ chosen.foldl (fun r u => r + valueOf ParseFloat u) running := by
  intro outputs
  induction outputs with
  | nil =>
    intro running h
    exact ⟨[], by simpa [accumulate] using h, ⟨[], rfl⟩, h⟩
  | cons x rest ih =>
    intro running h
    by_cases hr : target ≤ running
    · exact ⟨[], by simp [accumulate, hr], ⟨x :: rest, rfl⟩, hr⟩
    · obtain ⟨chosen, hacc, ⟨t, ht⟩, htot⟩ := ih (running + valueOf ParseFloat x) h
      exact ⟨x :: chosen, by simp [accumulate, hr, hacc], ⟨t, by rw [← ht]; rfl⟩, htot⟩

/-- Sufficiency in the order of the code: when the target is at most the
total of the candidates' resolved values, added from left to right in input
order, selection succeeds with the first candidates under consideration,
and their total, added the same way, is at least the target. -/
theorem selectCoins_reaches_target [Zero F] [Add F] [LE F] [DecidableRel (fun x y : F => x ≤ y)]
    [LT F] [DecidableRel (fun x y : F => x < y)]
    (ParseFloat : ByteSeq → Except E F)
    (hirr : ∀ x : F, ¬ x < x) (candidates : List (UTXO F)) (target : F)
    (h : target ≤ totalValue ParseFloat (resolvedCandidates ParseFloat candidates)) :
    ∃ chosen, selectCoins ParseFloat candidates target = some (.ok chosen) ∧
      chosen <+: resolvedCandidates ParseFloat candidates ∧
      target ≤ totalValue ParseFloat chosen := by
  obtain ⟨chosen, hacc, hpre, htot⟩ := accumulate_reaches ParseFloat target _ 0 h
  refine ⟨chosen, ?_, hpre, htot⟩
  simp only [selectCoins, considered_eq_resolvedCandidates ParseFloat hirr candidates, hacc]

/-- Adding outputs whose values are at least 0 to a running total that is
at least 0 keeps every lower bound of the running total. -/
theorem foldl_value_ge [Zero F] [Add F] [LE F] [LT F] (hF : NumberOrder F) (ParseFloat : ByteSeq → Except E F) :
    ∀ (outputs : List (UTXO F)) (t running : F),
      (∀ u ∈ outputs, 0 ≤ valueOf ParseFloat u) → 0 ≤ running → t ≤ running →
      t ≤ outputs.foldl (fun r u => r + valueOf ParseFloat u) running
  | [], _, _, _, _, ht => ht
  | x :: rest, t, running, hnn, h0, ht => by
    have hx : 0 ≤ valueOf ParseFloat x := hnn x (List.mem_cons_self _ _)
    have hstep : running ≤ running + valueOf ParseFloat x := hF.le_add _ _ h0 hx
    exact foldl_value_ge hF ParseFloat rest t (running + valueOf ParseFloat x)
      (fun u hu => hnn u (List.mem_cons_of_mem _ hu))
      (hF.le_trans _ _ _ h0 hstep) (hF.le_trans _ _ _ ht hstep)

/-- The accumulation loop fails when the outputs have values of at least 0
and the running total with all of them stays below the target. -/
theorem accumulate_fails [Zero F] [Add F] [LE F] [LT F] [DecidableRel (fun x y : F => x ≤ y)]
    (hF : NumberOrder F) (ParseFloat : ByteSeq → Except E F)
    (target : F) :
    ∀ (outputs : List (UTXO F)) (running : F),
      (∀ u ∈ outputs, 0 ≤ valueOf ParseFloat u) → 0 ≤ running →
      ¬ target ≤ outputs.foldl (fun r u => r + valueOf ParseFloat u) running →
      accumulate ParseFloat target running outputs = .error .InsufficientFundsError
  | [], running, _, _, h => by
    have h' : ¬ target ≤ running := h
    simp [accumulate, h']
  | x :: rest, running, hnn, h0, h => by
    have hr : ¬ target ≤ running := fun hle =>
      h (foldl_value_ge hF ParseFloat (x :: rest) target running hnn h0 hle)
    have hx : 0 ≤ valueOf ParseFloat x := hnn x (List.mem_cons_self _ _)
    have ih := accumulate_fails hF ParseFloat target rest (running + valueOf ParseFloat x)
      (fun u hu => hnn u (List.mem_cons_of_mem _ hu))
      (hF.le_trans _ _ _ h0 (hF.le_add _ _ h0 hx)) h
    simp [accumulate, hr, ih]

end SelectorTheorems

/-- The rational numbers have the facts of `NumberOrder`. -/
theorem NumberOrder_rat : NumberOrder ℚ where
  lt_irrefl := lt_irrefl
  le_trans := fun _ _ _ => le_trans
  not_le_of_lt := fun _ _ => not_le_of_lt
  zero_le_zero := le_refl 0
  le_add := fun _ _ _ hy => le_add_of_nonneg_right hy

/-- The three candidates of the scenario all resolve, in input order. -/
theorem resolvedCandidates_scenario :
    resolvedCandidates parseDecimal [candidate "1.0", candidate "2.5", candidate "0.5"] =
      [resolvedCandidate "1.0" 1, resolvedCandidate "2.5" (5 / 2),
       resolvedCandidate "0.5" (1 / 2)] := by
  obtain ⟨p₁, p₂, p₃, -⟩ := parseDecimal_examples
  simp only [resolvedCandidates, List.filterMap_cons, List.filterMap_nil,
    candidate_Value _ _ p₁, candidate_Value _ _ p₂, candidate_Value _ _ p₃]

/-- The resolved value of a candidate with a filled cache is the cached
number. -/
theorem valueOf_resolvedCandidate (s : String) (v : ℚ) :
    valueOf parseDecimal (resolvedCandidate s v) = v := by
  simp [valueOf, UTXO.Value, resolvedCandidate]

/-- C10 on the code.  For the candidates with value strings `"1.0"`, `"2.5"`,
`"0.5"` and the target 2: the three resolve to 1, 5/2 and 1/2, so the
ascending order is the third, the first, the second; the sort driven by
`utxoByValue.Less` leaves them in input order, 1, 5/2, 1/2, and the
accumulation selects the first two, whose total 7/2 reaches the target. -/
theorem selectCoins_scenario_on_code :
    resolvedCandidates parseDecimal [candidate "1.0", candidate "2.5", candidate "0.5"] =
      [resolvedCandidate "1.0" 1, resolvedCandidate "2.5" (5 / 2),
       resolvedCandidate "0.5" (1 / 2)] ∧
    ((1 : ℚ) / 2 < 1 ∧ (1 : ℚ) < 5 / 2) ∧
    considered parseDecimal [candidate "1.0", candidate "2.5", candidate "0.5"] =
      some [resolvedCandidate "1.0" 1, resolvedCandidate "2.5" (5 / 2),
        resolvedCandidate "0.5" (1 / 2)] ∧
    selectCoins parseDecimal [candidate "1.0", candidate "2.5", candidate "0.5"] 2 =
      some (.ok [resolvedCandidate "1.0" 1, resolvedCandidate "2.5" (5 / 2)]) ∧
    totalValue parseDecimal [resolvedCandidate "1.0" 1, resolvedCandidate "2.5" (5 / 2)] =
      7 / 2 := by
  have hcons := considered_eq_resolvedCandidates parseDecimal (fun x : ℚ => lt_irrefl x)
    [candidate "1.0", candidate "2.5", candidate "0.5"]
  rw [resolvedCandidates_scenario] at hcons
  refine ⟨resolvedCandidates_scenario, ⟨by norm_num, by norm_num⟩, hcons, ?_, ?_⟩
  · have a : ¬ ((2 : ℚ) ≤ 0) := by norm_num
    have b : ¬ ((2 : ℚ) ≤ 0 + 1) := by norm_num
    have c : (2 : ℚ) ≤ 0 + 1 + 5 / 2 := by norm_num
    simp only [selectCoins, hcons, accumulate, valueOf_resolvedCandidate, a, b, c,
      if_true, if_false]
  · simp only [totalValue, List.foldl_cons, List.foldl_nil, valueOf_resolvedCandidate]
    norm_num

end neogo
